import Mathlib

/-! # Verification of the osa-filters template-filter library

Shallow embedding of `playbooks/plugins/filter/osa-filters.py` and proofs
about its filters.  Python strings are modelled as Lean `String`s, Python
lists as Lean `List`s, Python `None` and absent values as `Option`, and every
Python primitive that can raise (list subscripting, `list.index`,
`int(..., 36)`) is modelled as an `Option`-valued operation, so that the
absence of failure paths becomes a provable statement.  Python `set`s are
modelled as duplicate-free lists; their iteration order is unspecified in
Python, and the embedding fixes one concrete order. -/

/-- Python 2 `\s` character class for `str` patterns:
space, tab, LF, VT, FF, CR. -/
def isPySpace (c : Char) : Bool :=
  c == ' ' || c == '\t' || c == '\n' || c == '\x0b' || c == '\x0c' || c == '\r'

/-- Python 2 `str.lower` (ASCII case folding), applied characterwise. -/
def pyLower (s : String) : String := String.mk (s.data.map Char.toLower)

/-- Python `str.startswith`. -/
def pyStartsWith (s p : String) : Bool := p.data.isPrefixOf s.data

/-- First occurrence of `sub` in `cs`: the parts strictly before and
strictly after the matched occurrence. -/
def findSub (sub : List Char) : List Char → Option (List Char × List Char)
  | [] => if sub.isEmpty then some ([], []) else none
  | c :: rest =>
    if sub.isPrefixOf (c :: rest) then some ([], (c :: rest).drop sub.length)
    else (findSub sub rest).map (fun p => (c :: p.1, p.2))

/-- Python `sub in s` substring test. -/
def pyContains (s sub : String) : Bool := (findSub sub.data s.data).isSome

/-- Python `s.split(sep, 1)`. -/
def pySplit1 (s sep : String) : List String :=
  match findSub sep.data s.data with
  | none => [s]
  | some (b, a) => [String.mk b, String.mk a]

/-- Fuelled worker for Python `s.split(sep)` (the fuel is an upper bound on
the number of characters still to scan, so it is never exhausted). -/
def pySplitF (sep : List Char) : Nat → List Char → List (List Char)
  | 0, cs => [cs]
  | fuel + 1, cs =>
    match findSub sep cs with
    | none => [cs]
    | some (b, a) => b :: pySplitF sep fuel a

/-- Python `s.split(sep)` for a non-empty separator. -/
def pySplitS (s sep : String) : List String :=
  (pySplitF sep.data s.data.length s.data).map String.mk

/-- Python `s.rstrip(c)` for a single strip character. -/
def pyRstrip (s : String) (c : Char) : String :=
  String.mk ((s.data.reverse.dropWhile (· == c)).reverse)

/-- Model of `os.path.basename` on POSIX paths: everything after the last slash. -/
def os_path_basename (p : String) : String :=
  String.mk ((p.data.reverse.takeWhile (fun c => !(c == '/'))).reverse)

/-- Truthiness of an optional Python string (`None` and `""` are falsy). -/
def pyTruthy : Option String → Bool
  | none => false
  | some s => !s.isEmpty

/-- Lexicographic `≤` on character lists, comparing code points, as Python
compares ASCII strings. -/
def charListLe : List Char → List Char → Bool
  | [], _ => true
  | _ :: _, [] => false
  | a :: as, b :: bs => if a = b then charListLe as bs else decide (a < b)

/-- Python string comparison `a <= b` (lexicographic by character). -/
def pyStrLe (a b : String) : Bool := charListLe a.data b.data

/-- Insert a string into a list, before the first element it is `≤`. -/
def pyInsert (x : String) : List String → List String
  | [] => [x]
  | y :: rest => if pyStrLe x y then x :: y :: rest else y :: pyInsert x rest

/-- Python `sorted` on a list of strings (ascending lexicographic order),
realised as insertion sort. -/
def pySort : List String → List String
  | [] => []
  | x :: rest => pyInsert x (pySort rest)

/-- Python `set(xs)`, represented as the list of distinct elements. -/
def pySet (xs : List String) : List String := xs.dedup

/-- Python `sorted(set(xs))`: the distinct elements in ascending order. -/
def pySortedSet (xs : List String) : List String := pySort (pySet xs)

/-- One attempt of the regex alternation `(>=|<=|>|<|==|~=|!=)` at the head
of the character list, trying the branches in the same order as the regex
engine does (so `>=` wins over `>` and `<=` over `<`). -/
def tryOps : List Char → Option (String × List Char)
  | '>' :: '=' :: rest => some (">=", rest)
  | '>' :: rest => some (">", rest)
  | '<' :: '=' :: rest => some ("<=", rest)
  | '<' :: rest => some ("<", rest)
  | '=' :: '=' :: rest => some ("==", rest)
  | '~' :: '=' :: rest => some ("~=", rest)
  | '!' :: '=' :: rest => some ("!=", rest)
  | _ => none

/-- Fuelled worker for `re.split(r'(>=|<=|>|<|==|~=|!=)\s*', s)`: scan left
to right; at the first position where an alternative matches, emit the field
scanned so far and the captured operator, greedily consume trailing
whitespace, and continue.  The fuel is an upper bound on the number of
characters left and is never exhausted. -/
def reSplitF : Nat → List Char → List Char → List String
  | 0, acc, cs => [String.mk (acc ++ cs)]
  | fuel + 1, acc, [] =>
    (fun _ => [String.mk acc]) fuel
  | fuel + 1, acc, c :: rest =>
    match tryOps (c :: rest) with
    | some (op, rest2) =>
      String.mk acc :: op :: reSplitF fuel [] (rest2.dropWhile isPySpace)
    | none => reSplitF fuel (acc ++ [c]) rest

/-- Model of `re.split(r'(>=|<=|>|<|==|~=|!=)\s*', s)` on a character list. -/
def reSplitOps (acc cs : List Char) : List String := reSplitF cs.length acc cs

/-- Function `_pip_requirement_split` from osa-filters.py.  Returns
`(name, versions, marker)`.  The outer `Option` layer records that Python
list subscripting can raise; the inner options are Python `None`. -/
def _pip_requirement_split (requirement : String) :
    Option (String × Option String × Option String) :=
  let parts := pySplitS requirement ";"
  match parts.get? 0 with
  | none => none
  | some req0 =>
    let info := reSplitOps [] req0.data
    match info.get? 0 with
    | none => none
    | some name =>
      match (if parts.length > 1 then (parts.get? 1).map some else some none) with
      | none => none
      | some marker =>
        match (if info.length > 1 then (info.get? 1).map some else some none) with
        | none => none
        | some versions => some (name, versions, marker)

/-- The `;`-separated pieces of a requirement string. -/
def reqParts (r : String) : List String := pySplitS r ";"

/-- The `re.split` fields of the part before the first `;`. -/
def reqInfo (r : String) : List String :=
  reSplitOps [] ((reqParts r).headD "").data

/-- The name field `_pip_requirement_split` computes. -/
def reqName (r : String) : String := (reqInfo r).headD ""

/-- The versions field `_pip_requirement_split` computes. -/
def reqVersions (r : String) : Option String :=
  if (reqInfo r).length > 1 then (reqInfo r).get? 1 else none

/-- The marker field `_pip_requirement_split` computes. -/
def reqMarker (r : String) : Option String :=
  if (reqParts r).length > 1 then (reqParts r).get? 1 else none

/-- Function `_lower_set_lists` from osa-filters.py: lower-case both lists and turn
them into sets. -/
def _lower_set_lists (list_one list_two : List String) :
    List String × List String :=
  (pySet (list_one.map pyLower), pySet (list_two.map pyLower))

/-- Fuelled Python `int.bit_length` on a natural number (the fuel is an
upper bound on the value and is never exhausted). -/
def bitLenF : Nat → Nat → Nat
  | 0, _ => 0
  | fuel + 1, n => if n = 0 then 0 else bitLenF fuel (n / 2) + 1

/-- Python `int.bit_length` of the absolute value. -/
def pyBitLength (n : Nat) : Nat := bitLenF n n

/-- Function `bit_length_power_of_2` from osa-filters.py:
`2 ** (int(value) - 1).bit_length()`.  Python `bit_length` uses the
absolute value of its argument. -/
def bit_length_power_of_2 (value : Int) : Nat :=
  2 ^ pyBitLength (value - 1).natAbs

/-- The accumulation loop of `pip_requirement_names`: parse each
requirement, keep the lower-cased name unless it is empty or starts
with `#`. -/
def namedLoop : List String → List String → Option (List String)
  | [], acc => some acc
  | req :: rest, acc =>
    match _pip_requirement_split req with
    | none => none
    | some (name, _, _) =>
      if !name.isEmpty && !pyStartsWith name "#" then
        namedLoop rest (acc ++ [pyLower name])
      else namedLoop rest acc

/-- Function `pip_requirement_names` from osa-filters.py. -/
def pip_requirement_names (requirements : List String) :
    Option (List String) :=
  match namedLoop requirements [] with
  | none => none
  | some named => some (pySortedSet named)

/-- Specification-level description of the names `pip_requirement_names`
keeps: the lower-cased parsed names that are non-empty and not comments. -/
def keptNames (requirements : List String) : List String :=
  requirements.filterMap fun r =>
    if !(reqName r).isEmpty && !pyStartsWith (reqName r) "#" then
      some (pyLower (reqName r))
    else none

/-- The inner `for item1 in _list_one` search of `pip_constraint_update`:
find the first entry whose parsed name equals `name2`. -/
def findConstraintMatch (name2 : String) : List String → Option (Option String)
  | [] => some none
  | item1 :: rest =>
    match _pip_requirement_split item1 with
    | none => none
    | some (n1, _, _) =>
      if name2 = n1 then some (some item1) else findConstraintMatch name2 rest

/-- Python `list.index` (raises when the value is absent). -/
def pyListIndex (x : String) : List String → Option Nat
  | [] => none
  | y :: rest => if y = x then some 0 else (pyListIndex x rest).map (· + 1)

/-- The body of the `for item2 in _list_two` loop of
`pip_constraint_update`: replace the first entry of `acc` whose parsed name
is `name2` (via `list.index` and subscript assignment), else append. -/
def constraintLoop (acc : List String) (name2 item2 : String) :
    Option (List String) :=
  match findConstraintMatch name2 acc with
  | none => none
  | some none => some (acc ++ [item2])
  | some (some item1) =>
    match pyListIndex item1 acc with
    | none => none
    | some i => some (acc.set i item2)

/-- The whole override loop of `pip_constraint_update`. -/
def pip_constraint_steps (l1 : List String) : List String → Option (List String)
  | [] => some l1
  | item2 :: rest =>
    match _pip_requirement_split item2 with
    | none => none
    | some (n2, v2, _) =>
      if pyTruthy v2 then
        match constraintLoop l1 n2 item2 with
        | none => none
        | some l1' => pip_constraint_steps l1' rest
      else pip_constraint_steps l1 rest

/-- Function `pip_constraint_update` from osa-filters.py. -/
def pip_constraint_update (list_one list_two : List String) :
    Option (List String) :=
  let p := _lower_set_lists list_one list_two
  match pip_constraint_steps p.1 p.2 with
  | none => none
  | some out => some (pySort out)

/-- Modelled from the spec's merge description: replace the first entry of
the base list whose parsed name matches, or append at the end when none
matches. -/
def specReplace (name2 item2 : String) : List String → List String
  | [] => [item2]
  | x :: rest =>
    if reqName x = name2 then item2 :: rest
    else x :: specReplace name2 item2 rest

/-- Modelled from the spec's words for the constraint merge: lower-case and
deduplicate both lists; every override with a non-empty version spec
replaces the matching base entry or is appended; remaining overrides are
ignored; the result is sorted ascending. -/
def merge_spec (base overrides : List String) : List String :=
  let b := pySet (base.map pyLower)
  let o := pySet (overrides.map pyLower)
  pySort (o.foldl
    (fun acc item2 =>
      if pyTruthy (reqVersions item2) then
        specReplace (reqName item2) item2 acc
      else acc)
    b)

/-- Function `filtered_list` from osa-filters.py: lower-cased set difference. -/
def filtered_list (list_one list_two : List String) : List String :=
  let p := _lower_set_lists list_one list_two
  p.1.filter (fun x => !p.2.contains x)

/-- The dictionary `git_link_parse` returns. -/
structure GitParts where
  name : String
  version : String
  plugin_path : Option String
  url : String
  original : String
deriving Repr, DecidableEq

/-- The scheme-marker stripping step of `git_link_parse`:
`repo.split('git+', 1)[-1]` whenever `'git+' in repo`. -/
def gitUrlOf (repo : String) : Option String :=
  if pyContains repo "git+" then (pySplit1 repo "git+").getLast?
  else some repo

/-- Function `git_link_parse` from osa-filters.py. -/
def git_link_parse (repo : String) : Option GitParts :=
  match gitUrlOf repo with
  | none => none
  | some _git_url =>
    match
      (if pyContains _git_url "@" then
        match (pySplit1 _git_url "@").get? 0, (pySplit1 _git_url "@").get? 1 with
        | some u, some b => some (u, b)
        | _, _ => none
      else some (_git_url, "master")) with
    | none => none
    | some (url, branch0) =>
      let name := os_path_basename (pyRstrip url '/')
      let _branch := pySplitS branch0 "#"
      match _branch.get? 0 with
      | none => none
      | some branch =>
        match
          (if _branch.length > 1 then
            match _branch.getLast? with
            | none => none
            | some lastB =>
              if pyContains lastB "subdirectory=" then
                match (pySplitS lastB "subdirectory=").getLast? with
                | none => none
                | some seg =>
                  match (pySplitS seg "&").get? 0 with
                  | none => none
                  | some pp => some (some pp)
              else some none
          else some none) with
        | none => none
        | some plugin_path =>
          match (pySplitS name ".git").get? 0 with
          | none => none
          | some shortName =>
            some { name := pyLower shortName, version := branch,
                   plugin_path := plugin_path, url := url, original := repo }

/-- The failure modes of the `deprecated` filter: the three
`AnsibleUndefinedVariable` configuration errors and the fatal
`RuntimeError`. -/
inductive DepError where
  | missing_old_var_name
  | missing_new_var_name
  | missing_removed_in
  | fatal_deprecated
deriving Repr, DecidableEq

/-- Python `str(bool)`. -/
def pyStrBool (b : Bool) : String := if b then "True" else "False"

/-- Function `_deprecated` from osa-filters.py.  Here `none` models an Ansible
`Undefined` or `None` argument; logging is a side effect with no influence
on the returned value and is not modelled. -/
def _deprecated (new_var : String) (old_var old_var_name new_var_name
    removed_in : Option String) (fatal : Bool) : Except DepError String :=
  if !pyTruthy old_var_name then .error .missing_old_var_name
  else if !pyTruthy new_var_name then .error .missing_new_var_name
  else if !pyTruthy removed_in then .error .missing_removed_in
  else
    match old_var with
    | none => .ok new_var
    | some ov =>
      if ov.isEmpty then .ok new_var
      else if (["yes", "true"] : List String).contains (pyLower (pyStrBool fatal)) then
        .error .fatal_deprecated
      else .ok ov

/-- Python 2 `s.encode('utf-8')` on a byte string.  The bytes are first
implicitly decoded with the ascii codec, which raises `UnicodeDecodeError`
on any byte at or above `0x80` (and the source's `except AttributeError`
does not catch this); on a pure-ASCII byte string the result is the same
byte values. -/
def pyEncodeUtf8 (s : String) : Option (List Nat) :=
  if s.data.all (fun c => c.toNat < 128) then some (s.data.map Char.toNat)
  else none

/-- Truncation to a 32-bit word. -/
def w32 (n : Nat) : Nat := n % 4294967296

/-- Right rotation of a 32-bit word. -/
def rotr32 (k x : Nat) : Nat := w32 (x / 2 ^ k + x % 2 ^ k * 2 ^ (32 - k))

/-- SHA-256 Σ0. -/
def bsig0 (x : Nat) : Nat := rotr32 2 x ^^^ rotr32 13 x ^^^ rotr32 22 x

/-- SHA-256 Σ1. -/
def bsig1 (x : Nat) : Nat := rotr32 6 x ^^^ rotr32 11 x ^^^ rotr32 25 x

/-- SHA-256 σ0. -/
def ssig0 (x : Nat) : Nat := rotr32 7 x ^^^ rotr32 18 x ^^^ x / 8

/-- SHA-256 σ1. -/
def ssig1 (x : Nat) : Nat := rotr32 17 x ^^^ rotr32 19 x ^^^ x / 1024

/-- SHA-256 Ch. -/
def chF (e f g : Nat) : Nat := (e &&& f) ^^^ ((e ^^^ 4294967295) &&& g)

/-- SHA-256 Maj. -/
def majF (a b c : Nat) : Nat := (a &&& b) ^^^ (a &&& c) ^^^ (b &&& c)

/-- The SHA-256 round constants. -/
def sha256K : List Nat :=
  [1116352408, 1899447441, 3049323471, 3921009573,
   961987163, 1508970993, 2453635748, 2870763221,
   3624381080, 310598401, 607225278, 1426881987,
   1925078388, 2162078206, 2614888103, 3248222580,
   3835390401, 4022224774, 264347078, 604807628,
   770255983, 1249150122, 1555081692, 1996064986,
   2554220882, 2821834349, 2952996808, 3210313671,
   3336571891, 3584528711, 113926993, 338241895,
   666307205, 773529912, 1294757372, 1396182291,
   1695183700, 1986661051, 2177026350, 2456956037,
   2730485921, 2820302411, 3259730800, 3345764771,
   3516065817, 3600352804, 4094571909, 275423344,
   430227734, 506948616, 659060556, 883997877,
   958139571, 1322822218, 1537002063, 1747873779,
   1955562222, 2024104815, 2227730452, 2361852424,
   2428436474, 2756734187, 3204031479, 3329325298]

/-- SHA-256 working state: eight 32-bit words. -/
structure Hash8 where
  a : Nat
  b : Nat
  c : Nat
  d : Nat
  e : Nat
  f : Nat
  g : Nat
  h : Nat

/-- The SHA-256 initial hash value. -/
def sha256Init : Hash8 :=
  ⟨1779033703, 3144134277, 1013904242, 2773480762,
   1359893119, 2600822924, 528734635, 1541459225⟩

/-- SHA-256 padding: append `0x80`, zeros, and the 64-bit big-endian bit
length, reaching a multiple of 64 bytes. -/
def sha256Pad (msg : List Nat) : List Nat :=
  let L := msg.length
  msg ++ [128] ++ List.replicate ((119 - L % 64) % 64) 0 ++
    (List.range 8).map (fun i => 8 * L / 256 ^ (7 - i) % 256)

/-- Split the padded message into 64-byte chunks (fuelled; the fuel bounds
the number of bytes and is never exhausted). -/
def chunksF : Nat → List Nat → List (List Nat)
  | 0, _ => []
  | _ + 1, [] => []
  | fuel + 1, b :: rest =>
    (b :: rest).take 64 :: chunksF fuel ((b :: rest).drop 64)

/-- The 64-byte chunks of the padded message. -/
def chunksOf64 (l : List Nat) : List (List Nat) := chunksF l.length l

/-- The first 16 words (big-endian) of a 64-byte chunk. -/
def chunkWords (chunk : List Nat) : List Nat :=
  (List.range 16).map fun i =>
    chunk.getD (4 * i) 0 * 16777216 + chunk.getD (4 * i + 1) 0 * 65536 +
      chunk.getD (4 * i + 2) 0 * 256 + chunk.getD (4 * i + 3) 0

/-- One message-schedule extension step. -/
def schedStep (ws : List Nat) : List Nat :=
  ws ++ [w32 (ssig1 (ws.getD (ws.length - 2) 0) + ws.getD (ws.length - 7) 0 +
    ssig0 (ws.getD (ws.length - 15) 0) + ws.getD (ws.length - 16) 0)]

/-- Iterate the message-schedule extension. -/
def schedule (init : List Nat) : Nat → List Nat
  | 0 => init
  | n + 1 => schedStep (schedule init n)

/-- One SHA-256 compression round. -/
def sha256Round (s : Hash8) (kt wt : Nat) : Hash8 :=
  let t1 := w32 (s.h + bsig1 s.e + chF s.e s.f s.g + kt + wt)
  let t2 := w32 (bsig0 s.a + majF s.a s.b s.c)
  ⟨w32 (t1 + t2), s.a, s.b, s.c, w32 (s.d + t1), s.e, s.f, s.g⟩

/-- Compress one 64-byte chunk into the running hash state. -/
def compressChunk (hs : Hash8) (chunk : List Nat) : Hash8 :=
  let W := schedule (chunkWords chunk) 48
  let t := (sha256K.zip W).foldl (fun s kw => sha256Round s kw.1 kw.2) hs
  ⟨w32 (hs.a + t.a), w32 (hs.b + t.b), w32 (hs.c + t.c), w32 (hs.d + t.d),
   w32 (hs.e + t.e), w32 (hs.f + t.f), w32 (hs.g + t.g), w32 (hs.h + t.h)⟩

/-- The SHA-256 hash state of a byte string. -/
def sha256Hash (msg : List Nat) : Hash8 :=
  (chunksOf64 (sha256Pad msg)).foldl compressChunk sha256Init

/-- The hexadecimal digit characters. -/
def hexDigit (n : Nat) : Char := "0123456789abcdef".data.getD (n % 16) '0'

/-- Eight hex characters of one 32-bit word, most significant first. -/
def toHex8 (w : Nat) : List Char :=
  (List.range 8).map fun i => hexDigit (w / 16 ^ (7 - i))

/-- Model of `hashlib.sha256(bytes).hexdigest()`. -/
def sha256hexdigest (msg : List Nat) : String :=
  let hs := sha256Hash msg
  String.mk (([hs.a, hs.b, hs.c, hs.d, hs.e, hs.f, hs.g, hs.h].map toHex8).flatten)

/-- Value of one character as a base-36 digit, as Python `int(_, 36)`
accepts them. -/
def digitVal36 (c : Char) : Option Nat :=
  if '0' ≤ c ∧ c ≤ '9' then some (c.toNat - 48)
  else if 'a' ≤ c ∧ c ≤ 'z' then some (c.toNat - 87)
  else if 'A' ≤ c ∧ c ≤ 'Z' then some (c.toNat - 55)
  else none

/-- Python `int(s, 36)` on a plain digit string (raises on the empty string
or an invalid digit). -/
def pyIntBase36 (s : String) : Option Nat :=
  if s.data.isEmpty then none
  else s.data.foldlM (fun acc c => (digitVal36 c).map (acc * 36 + ·)) 0

/-- Function `string_2_int` from osa-filters.py: utf-8 encode, sha256
hexdigest, read as a base-36 integer, modulo 10240.  The `Option` layer
records both the encoding's `UnicodeDecodeError` and the failure path of
`int(_, 36)`. -/
def string_2_int (string : String) : Option Nat :=
  match pyEncodeUtf8 string with
  | none => none
  | some bytes =>
    match pyIntBase36 (sha256hexdigest bytes) with
    | none => none
    | some n => some (n % 10240)

/-- Ascending order with respect to the Python string comparison. -/
def SortedPy (l : List String) : Prop :=
  l.Pairwise (fun a b => pyStrLe a b = true)

/-- Characters at which the version-descriptor regex alternation can start
a match. -/
def isTrigger (c : Char) : Bool :=
  c == '>' || c == '<' || c == '=' || c == '~' || c == '!'

/-- The working URL `git_link_parse` computes (total form). -/
def gitWorkUrl (repo : String) : String :=
  if pyContains repo "git+" then (pySplit1 repo "git+").getLastD ""
  else repo

/-- The `url` field `git_link_parse` computes (total form). -/
def gitUrlField (repo : String) : String :=
  if pyContains (gitWorkUrl repo) "@" then
    (pySplit1 (gitWorkUrl repo) "@").headD ""
  else gitWorkUrl repo

/-- The part after the first `@` of the working URL, or `"master"`. -/
def gitBranch0 (repo : String) : String :=
  if pyContains (gitWorkUrl repo) "@" then
    (pySplit1 (gitWorkUrl repo) "@").getLastD ""
  else "master"

/-- The `#`-separated pieces of the branch fragment. -/
def gitBranchParts (repo : String) : List String :=
  pySplitS (gitBranch0 repo) "#"

/-- The `version` field `git_link_parse` computes (total form). -/
def gitVersion (repo : String) : String := (gitBranchParts repo).headD ""

/-- The `plugin_path` field `git_link_parse` computes (total form). -/
def gitPluginPath (repo : String) : Option String :=
  if (gitBranchParts repo).length > 1 then
    if pyContains ((gitBranchParts repo).getLastD "") "subdirectory=" then
      some ((pySplitS ((pySplitS ((gitBranchParts repo).getLastD "")
        "subdirectory=").getLastD "") "&").headD "")
    else none
  else none

/-- The `name` field `git_link_parse` computes (total form). -/
def gitName (repo : String) : String :=
  pyLower ((pySplitS (os_path_basename (pyRstrip (gitUrlField repo) '/'))
    ".git").headD "")

/-- Total form of the whole `git_link_parse` result. -/
def git_link_parse_total (repo : String) : GitParts :=
  ⟨gitName repo, gitVersion repo, gitPluginPath repo, gitUrlField repo, repo⟩

theorem pySplitF_ne_nil (sep : List Char) (fuel : Nat) (cs : List Char) :
    pySplitF sep fuel cs ≠ [] := by
  cases fuel with
  | zero => simp [pySplitF]
  | succ n =>
    unfold pySplitF
    cases findSub sep cs with
    | none => simp
    | some p => cases p with | mk b a => simp

theorem pySplitS_ne_nil (s sep : String) : pySplitS s sep ≠ [] := by
  unfold pySplitS
  intro h
  exact pySplitF_ne_nil sep.data s.data.length s.data (List.map_eq_nil_iff.mp h)

theorem reSplitF_ne_nil (fuel : Nat) (acc cs : List Char) :
    reSplitF fuel acc cs ≠ [] := by
  cases fuel with
  | zero => simp [reSplitF]
  | succ n =>
    cases cs with
    | nil => simp [reSplitF]
    | cons c rest =>
      unfold reSplitF
      cases tryOps (c :: rest) with
      | none => exact reSplitF_ne_nil n (acc ++ [c]) rest
      | some p => cases p with | mk op rest2 => simp

theorem reSplitOps_ne_nil (acc cs : List Char) : reSplitOps acc cs ≠ [] :=
  reSplitF_ne_nil cs.length acc cs

theorem get?_zero_of_ne_nil {l : List String} (h : l ≠ []) :
    l.get? 0 = some (l.headD "") := by
  cases l with
  | nil => exact absurd rfl h
  | cons a t => rfl

theorem get?_one_isSome {l : List String} (h : 1 < l.length) :
    ∃ x, l.get? 1 = some x := by
  cases l with
  | nil => simp at h
  | cons a t =>
    cases t with
    | nil => simp at h
    | cons b t2 => exact ⟨b, rfl⟩

/-- Lemma: `_pip_requirement_split` never fails, and computes the three fields
`reqName`, `reqVersions`, `reqMarker`. -/
theorem _pip_requirement_split_eq (r : String) :
    _pip_requirement_split r = some (reqName r, reqVersions r, reqMarker r) := by
  have hp0 : (reqParts r).get? 0 = some ((reqParts r).headD "") :=
    get?_zero_of_ne_nil (pySplitS_ne_nil r ";")
  have hi0 : (reqInfo r).get? 0 = some ((reqInfo r).headD "") :=
    get?_zero_of_ne_nil (reSplitOps_ne_nil [] ((reqParts r).headD "").data)
  unfold _pip_requirement_split
  dsimp only
  rw [show pySplitS r ";" = reqParts r from rfl, hp0]
  dsimp only
  rw [show reSplitOps [] ((reqParts r).headD "").data = reqInfo r from rfl, hi0]
  dsimp only
  unfold reqName reqVersions reqMarker
  by_cases hp : 1 < (reqParts r).length
  · obtain ⟨m, hm⟩ := get?_one_isSome hp
    by_cases hi : 1 < (reqInfo r).length
    · obtain ⟨v, hv⟩ := get?_one_isSome hi
      simp [hp, hi, hm, hv]
    · simp [hp, hi, hm]
  · by_cases hi : 1 < (reqInfo r).length
    · obtain ⟨v, hv⟩ := get?_one_isSome hi
      simp [hp, hi, hv]
    · simp [hp, hi]

theorem charListLe_total (a : List Char) :
    ∀ b, charListLe a b = true ∨ charListLe b a = true := by
  induction a with
  | nil => intro b; left; rfl
  | cons c cs ih =>
    intro b
    cases b with
    | nil => right; rfl
    | cons d ds =>
      by_cases hcd : c = d
      · subst hcd
        simpa [charListLe] using ih ds
      · rcases lt_or_gt_of_ne hcd with hlt | hgt
        · left; simp [charListLe, hcd, hlt]
        · right
          have hdc : d ≠ c := fun h => hcd h.symm
          simp [charListLe, hdc, hgt]

theorem charListLe_trans (a : List Char) :
    ∀ b c, charListLe a b = true → charListLe b c = true →
      charListLe a c = true := by
  induction a with
  | nil => intro b c _ _; rfl
  | cons x xs ih =>
    intro b c hab hbc
    cases b with
    | nil => simp [charListLe] at hab
    | cons y ys =>
      cases c with
      | nil => simp [charListLe] at hbc
      | cons z zs =>
        by_cases hxy : x = y
        · subst hxy
          by_cases hyz : x = z
          · subst hyz
            simp only [charListLe, if_pos rfl] at hab hbc ⊢
            exact ih ys zs hab hbc
          · simpa [charListLe, hyz] using hbc
        · have hxyl : x < y := by
            simpa [charListLe, hxy, decide_eq_true_iff] using hab
          by_cases hyz : y = z
          · subst hyz
            simp [charListLe, hxy, hxyl]
          · have hyzl : y < z := by
              simpa [charListLe, hyz, decide_eq_true_iff] using hbc
            have hxz : x < z := lt_trans hxyl hyzl
            have hxzne : x ≠ z := ne_of_lt hxz
            simp [charListLe, hxzne, hxz]

theorem pyStrLe_total (a b : String) :
    pyStrLe a b = true ∨ pyStrLe b a = true :=
  charListLe_total a.data b.data

theorem pyStrLe_trans {a b c : String} (hab : pyStrLe a b = true)
    (hbc : pyStrLe b c = true) : pyStrLe a c = true :=
  charListLe_trans a.data b.data c.data hab hbc

theorem pyInsert_perm (x : String) (l : List String) :
    (pyInsert x l).Perm (x :: l) := by
  induction l with
  | nil => simp [pyInsert]
  | cons y rest ih =>
    by_cases h : pyStrLe x y = true
    · simp [pyInsert, h]
    · simp only [pyInsert, h]
      exact (ih.cons y).trans (List.Perm.swap x y rest)

theorem pySort_perm (l : List String) : (pySort l).Perm l := by
  induction l with
  | nil => simp [pySort]
  | cons x rest ih =>
    exact (pyInsert_perm x (pySort rest)).trans (ih.cons x)

theorem mem_pySort {x : String} {l : List String} :
    x ∈ pySort l ↔ x ∈ l :=
  (pySort_perm l).mem_iff

theorem nodup_pySort {l : List String} (h : l.Nodup) : (pySort l).Nodup :=
  ((pySort_perm l).nodup_iff).mpr h

theorem pyInsert_sorted {x : String} {l : List String} (h : SortedPy l) :
    SortedPy (pyInsert x l) := by
  induction l with
  | nil => simp [pyInsert, SortedPy]
  | cons y rest ih =>
    rcases List.pairwise_cons.mp h with ⟨hy, hrest⟩
    by_cases hxy : pyStrLe x y = true
    · unfold SortedPy pyInsert
      rw [if_pos hxy]
      refine List.pairwise_cons.mpr ⟨?_, h⟩
      intro z hz
      rcases List.mem_cons.mp hz with rfl | hz2
      · exact hxy
      · exact pyStrLe_trans hxy (hy z hz2)
    · have hyx : pyStrLe y x = true := by
        rcases pyStrLe_total x y with h1 | h1
        · exact absurd h1 hxy
        · exact h1
      unfold SortedPy pyInsert
      rw [if_neg hxy]
      refine List.pairwise_cons.mpr ⟨?_, ih hrest⟩
      intro z hz
      have hz2 := (pyInsert_perm x rest).mem_iff.mp hz
      rcases List.mem_cons.mp hz2 with rfl | hz3
      · exact hyx
      · exact hy z hz3

theorem pySort_sorted (l : List String) : SortedPy (pySort l) := by
  induction l with
  | nil => simp [pySort, SortedPy]
  | cons x rest ih => exact pyInsert_sorted ih

theorem char_toLower_idem (c : Char) :
    Char.toLower (Char.toLower c) = Char.toLower c := by
  by_cases h1 : c.toNat ≥ 65 ∧ c.toNat ≤ 90
  · have hvalid : (c.toNat + 32).isValidChar := Or.inl (by omega)
    have hval : (Char.ofNat (c.toNat + 32)).toNat = c.toNat + 32 := by
      rw [Char.ofNat, dif_pos hvalid]
      rfl
    have h2 : Char.toLower c = Char.ofNat (c.toNat + 32) := by
      simp only [Char.toLower]
      rw [if_pos h1]
    rw [h2]
    simp only [Char.toLower]
    rw [hval, if_neg (by omega)]
  · have h2 : Char.toLower c = c := by
      simp only [Char.toLower]
      rw [if_neg h1]
    rw [h2, h2]

theorem pyLower_idem (s : String) : pyLower (pyLower s) = pyLower s := by
  unfold pyLower
  simp only [List.map_map]
  congr 1
  apply List.map_congr_left
  intro c _
  exact char_toLower_idem c

theorem mem_pySet {x : String} {l : List String} : x ∈ pySet l ↔ x ∈ l :=
  List.mem_dedup

theorem nodup_pySet (l : List String) : (pySet l).Nodup := List.nodup_dedup l

theorem bitLenF_lt {fuel n : Nat} (h : n ≤ fuel) : n < 2 ^ bitLenF fuel n := by
  induction fuel generalizing n with
  | zero =>
    have : n = 0 := Nat.le_zero.mp h
    subst this
    simp [bitLenF]
  | succ f ih =>
    by_cases hn : n = 0
    · subst hn
      simp [bitLenF]
    · have hpos : 1 ≤ n := Nat.one_le_iff_ne_zero.mpr hn
      have hhalf : n / 2 ≤ f := by omega
      have hrec := ih hhalf
      simp only [bitLenF, hn, if_false, pow_succ]
      omega

theorem bitLenF_le {fuel n j : Nat} (hf : n ≤ fuel) (h : n < 2 ^ j) :
    bitLenF fuel n ≤ j := by
  induction fuel generalizing n j with
  | zero => simp [bitLenF]
  | succ f ih =>
    by_cases hn : n = 0
    · simp [bitLenF, hn]
    · have hpos : 1 ≤ n := Nat.one_le_iff_ne_zero.mpr hn
      have hj : j ≠ 0 := by
        intro hj0
        subst hj0
        simp at h
        omega
      obtain ⟨j', rfl⟩ := Nat.exists_eq_succ_of_ne_zero hj
      have hhalf : n / 2 ≤ f := by omega
      have hlt : n / 2 < 2 ^ j' := by
        rw [pow_succ] at h
        omega
      have := ih hhalf hlt
      simp only [bitLenF, hn, if_false]
      omega

/-- C8: for every integer `value ≥ 1`, `bit_length_power_of_2 value` is the
smallest power of two greater than or equal to `value`, equal to `2` raised
to the bit length of `value - 1`; in particular it maps `5` to `8` and `8`
to `8`. -/
theorem c8_bit_length_power_of_2 (v : Int) (h : 1 ≤ v) :
    bit_length_power_of_2 5 = 8 ∧
    bit_length_power_of_2 8 = 8 ∧
    bit_length_power_of_2 v = 2 ^ pyBitLength (v - 1).natAbs ∧
    v ≤ (bit_length_power_of_2 v : Int) ∧
    (∀ j : Nat, v ≤ 2 ^ j → bit_length_power_of_2 v ≤ 2 ^ j) := by
  refine ⟨by decide, by decide, rfl, ?_, ?_⟩
  · have hn : ((v - 1).natAbs : Int) = v - 1 := Int.natAbs_of_nonneg (by omega)
    have hlt : (v - 1).natAbs < 2 ^ pyBitLength (v - 1).natAbs :=
      bitLenF_lt (Nat.le_refl _)
    have hlt2 : ((v - 1).natAbs : Int) <
        ((2 ^ pyBitLength (v - 1).natAbs : Nat) : Int) := Int.ofNat_lt.mpr hlt
    rw [hn] at hlt2
    unfold bit_length_power_of_2
    omega
  · intro j hj
    have hn : ((v - 1).natAbs : Int) = v - 1 := Int.natAbs_of_nonneg (by omega)
    have hlt : (v - 1).natAbs < 2 ^ j := by
      have : (((v - 1).natAbs : Int)) < 2 ^ j := by
        rw [hn]
        have : (2 : Int) ^ j = ((2 ^ j : Nat) : Int) := by push_cast; ring
        omega
      exact_mod_cast this
    have hle : pyBitLength (v - 1).natAbs ≤ j := bitLenF_le (Nat.le_refl _) hlt
    unfold bit_length_power_of_2
    exact Nat.pow_le_pow_right (by omega) hle

/-- Witness for C8 at `value = 5`. -/
theorem c8_bit_length_power_of_2_witness :
    (1 : Int) ≤ 5 ∧
    (bit_length_power_of_2 5 = 8 ∧
      bit_length_power_of_2 8 = 8 ∧
      bit_length_power_of_2 5 = 2 ^ pyBitLength ((5 : Int) - 1).natAbs ∧
      (5 : Int) ≤ (bit_length_power_of_2 5 : Int) ∧
      (∀ j : Nat, (5 : Int) ≤ 2 ^ j → bit_length_power_of_2 5 ≤ 2 ^ j)) :=
  ⟨by norm_num, c8_bit_length_power_of_2 5 (by norm_num)⟩

/-- C5: `deprecated` raises a configuration error whenever any of
`old_var_name`, `new_var_name`, `removed_in` is missing or empty, regardless
of the other arguments; with all three provided it returns `new_var` when
`old_var` is undefined or empty, raises when `old_var` is in use and `fatal`
is true, and returns `old_var` otherwise. -/
theorem c5_deprecated (nv : String) (ov ovn nvn rin : Option String)
    (f : Bool) :
    ((pyTruthy ovn = false ∨ pyTruthy nvn = false ∨ pyTruthy rin = false) →
      _deprecated nv ov ovn nvn rin f ∈
        [Except.error DepError.missing_old_var_name,
         Except.error DepError.missing_new_var_name,
         Except.error DepError.missing_removed_in]) ∧
    (pyTruthy ovn = true → pyTruthy nvn = true → pyTruthy rin = true →
      ((pyTruthy ov = false → _deprecated nv ov ovn nvn rin f = .ok nv) ∧
       (pyTruthy ov = true → f = true →
         _deprecated nv ov ovn nvn rin f = .error .fatal_deprecated) ∧
       (pyTruthy ov = true → f = false →
         _deprecated nv ov ovn nvn rin f = .ok (ov.getD "")))) := by
  constructor
  · intro hmiss
    unfold _deprecated
    by_cases h1 : pyTruthy ovn = true
    · by_cases h2 : pyTruthy nvn = true
      · have h3 : pyTruthy rin = false := by
          rcases hmiss with h | h | h
          · simp [h1] at h
          · simp [h2] at h
          · exact h
        simp [h1, h2, h3]
      · have h2f : pyTruthy nvn = false := by
          cases hnv : pyTruthy nvn
          · rfl
          · exact absurd hnv h2
        simp [h1, h2f]
    · have h1f : pyTruthy ovn = false := by
        cases hov : pyTruthy ovn
        · rfl
        · exact absurd hov h1
      simp [h1f]
  · intro h1 h2 h3
    refine ⟨?_, ?_, ?_⟩
    · intro hov
      unfold _deprecated
      cases ov with
      | none => simp [h1, h2, h3]
      | some s =>
        have hs : s.isEmpty = true := by
          simpa [pyTruthy] using hov
        simp [h1, h2, h3, hs]
    · intro hov hf
      subst hf
      unfold _deprecated
      cases ov with
      | none => simp [pyTruthy] at hov
      | some s =>
        have hs : s.isEmpty = false := by
          simpa [pyTruthy] using hov
        simp [h1, h2, h3, hs, pyStrBool, pyLower]
    · intro hov hf
      subst hf
      unfold _deprecated
      cases ov with
      | none => simp [pyTruthy] at hov
      | some s =>
        have hs : s.isEmpty = false := by
          simpa [pyTruthy] using hov
        simp [h1, h2, h3, hs, pyStrBool, pyLower]

/-- Witness for C5: concrete fatal use of a deprecated variable. -/
theorem c5_deprecated_witness :
    pyTruthy (some "old_name") = true ∧
    _deprecated "new" (some "oldval") (some "old_name") (some "new_name")
      (some "Queens") true = .error .fatal_deprecated :=
  ⟨by decide,
    ((c5_deprecated "new" (some "oldval") (some "old_name") (some "new_name")
        (some "Queens") true).2 (by decide) (by decide) (by decide)).2.1
      (by decide) rfl⟩

theorem string_mk_data (s : String) : String.mk s.data = s := rfl

theorem tryOps_none_of_not_trigger {c : Char} (h : isTrigger c = false)
    (l : List Char) : tryOps (c :: l) = none := by
  simp only [isTrigger, Bool.or_eq_false_iff, beq_eq_false_iff_ne, ne_eq] at h
  obtain ⟨⟨⟨⟨h1, h2⟩, h3⟩, h4⟩, h5⟩ := h
  unfold tryOps
  split <;> simp_all

theorem tryOps_length {cs : List Char} {op : String} {rest2 : List Char}
    (h : tryOps cs = some (op, rest2)) : rest2.length < cs.length := by
  unfold tryOps at h
  split at h <;> simp_all <;> omega

theorem tryOps_no_semi {cs : List Char} {op : String} {rest2 : List Char}
    (h : tryOps cs = some (op, rest2)) : (';' : Char) ∉ op.data := by
  unfold tryOps at h
  split at h
  all_goals
    first
      | exact Option.noConfusion h
      | (simp only [Option.some.injEq, Prod.mk.injEq] at h
         rw [← h.1]
         decide)

theorem reSplitF_fuel (f1 : Nat) : ∀ (f2 : Nat) (acc cs : List Char),
    cs.length ≤ f1 → cs.length ≤ f2 → reSplitF f1 acc cs = reSplitF f2 acc cs := by
  induction f1 with
  | zero =>
    intro f2 acc cs h1 _
    have : cs = [] := List.length_eq_zero.mp (Nat.le_zero.mp h1)
    subst this
    cases f2 <;> simp [reSplitF]
  | succ g1 ih =>
    intro f2 acc cs h1 h2
    cases cs with
    | nil => cases f2 <;> simp [reSplitF]
    | cons c rest =>
      cases f2 with
      | zero => simp at h2
      | succ g2 =>
        have h1' : rest.length ≤ g1 := by simpa using h1
        have h2' : rest.length ≤ g2 := by simpa using h2
        simp only [reSplitF]
        cases htry : tryOps (c :: rest) with
        | none =>
          dsimp only
          exact ih g2 (acc ++ [c]) rest h1' h2'
        | some p =>
          cases p with
          | mk op rest2 =>
            have hlen : rest2.length < rest.length + 1 := by
              simpa using tryOps_length htry
            have hdw : (rest2.dropWhile isPySpace).length ≤ rest2.length :=
              (List.dropWhile_sublist isPySpace).length_le
            dsimp only
            rw [ih g2 [] (rest2.dropWhile isPySpace)
              (by omega) (by omega)]

theorem reSplitOps_not_trigger {c : Char} (h : isTrigger c = false)
    (acc rest : List Char) :
    reSplitOps acc (c :: rest) = reSplitOps (acc ++ [c]) rest := by
  unfold reSplitOps
  simp only [List.length_cons, reSplitF, tryOps_none_of_not_trigger h]

theorem reSplitOps_op {cs : List Char} {op : String} {rest2 : List Char}
    (h : tryOps cs = some (op, rest2)) (acc : List Char) :
    reSplitOps acc cs =
      String.mk acc :: op :: reSplitOps [] (rest2.dropWhile isPySpace) := by
  cases cs with
  | nil => simp [tryOps] at h
  | cons c rest =>
    have hlen : rest2.length < rest.length + 1 := by
      simpa using tryOps_length h
    have hdw : (rest2.dropWhile isPySpace).length ≤ rest2.length :=
      (List.dropWhile_sublist isPySpace).length_le
    unfold reSplitOps
    simp only [List.length_cons, reSplitF, h]
    rw [reSplitF_fuel rest.length (rest2.dropWhile isPySpace).length []
      (rest2.dropWhile isPySpace) (by omega) (Nat.le_refl _)]

theorem reSplitOps_append {xs : List Char}
    (h : ∀ c ∈ xs, isTrigger c = false) :
    ∀ (acc tail : List Char),
      reSplitOps acc (xs ++ tail) = reSplitOps (acc ++ xs) tail := by
  induction xs with
  | nil => intro acc tail; simp
  | cons c cs ih =>
    intro acc tail
    have hc : isTrigger c = false := h c (List.mem_cons_self c cs)
    rw [List.cons_append, reSplitOps_not_trigger hc,
      ih (fun d hd => h d (List.mem_cons_of_mem c hd)) (acc ++ [c]) tail,
      List.append_assoc]
    rfl

theorem findSub_single_none {c : Char} {cs : List Char} (h : c ∉ cs) :
    findSub [c] cs = none := by
  induction cs with
  | nil => simp [findSub]
  | cons d rest ih =>
    have hcd : c ≠ d := fun hh => h (hh ▸ List.mem_cons_self d rest)
    have hpre : ([c].isPrefixOf (d :: rest)) = false := by
      simp [List.isPrefixOf, hcd]
    rw [findSub, if_neg (by simp [hpre])]
    rw [ih (fun hm => h (List.mem_cons_of_mem d hm))]
    rfl

theorem pySplitF_of_none {sep cs : List Char} (h : findSub sep cs = none)
    (fuel : Nat) : pySplitF sep fuel cs = [cs] := by
  cases fuel <;> simp [pySplitF, h]

theorem reqParts_no_semi {r : String} (h : (';' : Char) ∉ r.data) :
    reqParts r = [r] := by
  unfold reqParts pySplitS
  rw [pySplitF_of_none (findSub_single_none h)]
  simp [string_mk_data]

/-- C1 counterexample: on `"pkg>=1.0"` the parser returns `">="` as the
versions field (the captured operator alone), not `">=1.0"` (the operator
together with the remainder), so the claimed output is wrong. -/
theorem c1_counterexample :
    _pip_requirement_split "pkg>=1.0" = some ("pkg", some ">=", none) ∧
    _pip_requirement_split "pkg>=1.0" ≠ some ("pkg", some ">=1.0", none) := by
  constructor
  · decide
  · decide

/-- C1 (amended): for a requirement of the form name, operator, remainder
(with a name free of operator characters and no `;` anywhere), the parser
returns the prefix as the name and the matched operator alone as the
versions field; the remainder after the operator is dropped. -/
theorem c1_split_name_and_operator (name op rest : String)
    (hfree : ∀ c ∈ name.data, isTrigger c = false)
    (hsemi1 : (';' : Char) ∉ name.data)
    (hsemi2 : (';' : Char) ∉ rest.data)
    (hop : tryOps (op.data ++ rest.data) = some (op, rest.data)) :
    _pip_requirement_split (name ++ op ++ rest) = some (name, some op, none) := by
  have hdata : (name ++ op ++ rest).data =
      name.data ++ (op.data ++ rest.data) := by
    simp [String.data_append]
  have hsemiop : (';' : Char) ∉ op.data := tryOps_no_semi hop
  have hsemiw : (';' : Char) ∉ (name ++ op ++ rest).data := by
    rw [hdata]
    simp only [List.mem_append]
    rintro (h | h | h)
    · exact hsemi1 h
    · exact hsemiop h
    · exact hsemi2 h
  have hparts : reqParts (name ++ op ++ rest) = [name ++ op ++ rest] :=
    reqParts_no_semi hsemiw
  have hinfo : reqInfo (name ++ op ++ rest) =
      name :: op :: reSplitOps [] (rest.data.dropWhile isPySpace) := by
    unfold reqInfo
    rw [hparts]
    simp only [List.headD_cons]
    rw [hdata, show ([] : List Char) = ([] : List Char) from rfl]
    rw [reSplitOps_append hfree [] (op.data ++ rest.data)]
    simp only [List.nil_append]
    rw [reSplitOps_op hop name.data, string_mk_data]
  have hname : reqName (name ++ op ++ rest) = name := by
    rw [reqName, hinfo]
    rfl
  have hvers : reqVersions (name ++ op ++ rest) = some op := by
    rw [reqVersions, hinfo]
    simp
  have hmark : reqMarker (name ++ op ++ rest) = none := by
    rw [reqMarker, hparts]
    simp
  rw [_pip_requirement_split_eq, hname, hvers, hmark]

/-- Witness for C1 at `"pkg" ++ ">=" ++ "1.0"`. -/
theorem c1_split_name_and_operator_witness :
    (∀ c ∈ "pkg".data, isTrigger c = false) ∧
    _pip_requirement_split ("pkg" ++ ">=" ++ "1.0") =
      some ("pkg", some ">=", none) :=
  ⟨by decide,
    c1_split_name_and_operator "pkg" ">=" "1.0" (by decide) (by decide)
      (by decide) (by decide)⟩

theorem keptNames_cons (r : String) (rest : List String) :
    keptNames (r :: rest) =
      if (!(reqName r).isEmpty && !pyStartsWith (reqName r) "#") = true then
        pyLower (reqName r) :: keptNames rest
      else keptNames rest := by
  by_cases hk : (!(reqName r).isEmpty && !pyStartsWith (reqName r) "#") = true
  · rw [if_pos hk]
    show List.filterMap _ (r :: rest) = pyLower (reqName r) :: keptNames rest
    rw [List.filterMap_cons, if_pos hk]
    rfl
  · rw [if_neg hk]
    show List.filterMap _ (r :: rest) = keptNames rest
    rw [List.filterMap_cons, if_neg hk]
    rfl

theorem namedLoop_eq (reqs : List String) :
    ∀ acc, namedLoop reqs acc = some (acc ++ keptNames reqs) := by
  induction reqs with
  | nil =>
    intro acc
    simp [namedLoop, keptNames]
  | cons r rest ih =>
    intro acc
    rw [namedLoop, _pip_requirement_split_eq]
    dsimp only
    rw [keptNames_cons]
    by_cases hk : (!(reqName r).isEmpty && !pyStartsWith (reqName r) "#") = true
    · rw [if_pos hk, if_pos hk, ih]
      simp
    · rw [if_neg hk, if_neg hk, ih]

/-- C7: `pip_requirement_names` parses every entry, keeps the lower-cased
parsed names that are non-empty and do not start with `#`, deduplicates,
and returns them sorted ascending; in particular
`names(["#comment", "Foo>=1.0", "bar"]) = ["bar", "foo"]`. -/
theorem c7_pip_requirement_names (reqs : List String) :
    pip_requirement_names reqs = some (pySortedSet (keptNames reqs)) ∧
    (∀ s, s ∈ pySortedSet (keptNames reqs) ↔ s ∈ keptNames reqs) ∧
    (pySortedSet (keptNames reqs)).Nodup ∧
    SortedPy (pySortedSet (keptNames reqs)) ∧
    pip_requirement_names ["#comment", "Foo>=1.0", "bar"] =
      some ["bar", "foo"] := by
  refine ⟨?_, ?_, ?_, ?_, ?_⟩
  · rw [pip_requirement_names, namedLoop_eq reqs []]
    rfl
  · intro s
    exact mem_pySort.trans mem_pySet
  · exact nodup_pySort (nodup_pySet _)
  · exact pySort_sorted _
  · decide

theorem findConstraintMatch_eq (name2 : String) :
    ∀ l, findConstraintMatch name2 l =
      some (l.find? (fun x => name2 == reqName x)) := by
  intro l
  induction l with
  | nil => simp [findConstraintMatch]
  | cons x rest ih =>
    rw [findConstraintMatch, _pip_requirement_split_eq]
    dsimp only
    by_cases hx : name2 = reqName x
    · have hpx : (name2 == reqName x) = true := beq_iff_eq.mpr hx
      have hfc : List.find? (fun y => name2 == reqName y) (x :: rest) =
          some x := by
        simp only [List.find?, hpx]
      rw [if_pos hx, hfc]
    · have hpx : (name2 == reqName x) = false := by simp [hx]
      have hfc : List.find? (fun y => name2 == reqName y) (x :: rest) =
          List.find? (fun y => name2 == reqName y) rest := by
        simp only [List.find?, hpx]
      rw [if_neg hx, hfc, ih]

theorem pyListIndex_isSome_of_mem {x : String} :
    ∀ {l : List String}, x ∈ l → (pyListIndex x l).isSome := by
  intro l
  induction l with
  | nil => intro h; simp at h
  | cons y rest ih =>
    intro h
    by_cases hyx : y = x
    · simp [pyListIndex, hyx]
    · have hx : x ∈ rest := by
        rcases List.mem_cons.mp h with h1 | h1
        · exact absurd h1.symm hyx
        · exact h1
      have hr := ih hx
      cases hidx : pyListIndex x rest with
      | none => rw [hidx] at hr; simp at hr
      | some i => simp [pyListIndex, if_neg hyx, hidx]

theorem specReplace_no_match {name2 item2 : String} :
    ∀ {l : List String}, (∀ y ∈ l, reqName y ≠ name2) →
      specReplace name2 item2 l = l ++ [item2] := by
  intro l
  induction l with
  | nil => intro _; rfl
  | cons y rest ih =>
    intro h
    rw [specReplace, if_neg (h y (List.mem_cons_self y rest)),
      ih (fun z hz => h z (List.mem_cons_of_mem y hz))]
    rfl

theorem constraintLoop_eq (name2 item2 : String) :
    ∀ acc, constraintLoop acc name2 item2 =
      some (specReplace name2 item2 acc) := by
  intro acc
  induction acc with
  | nil => simp [constraintLoop, findConstraintMatch, specReplace]
  | cons a rest ih =>
    by_cases ha : reqName a = name2
    · have hpa : (name2 == reqName a) = true := beq_iff_eq.mpr ha.symm
      have hfc : List.find? (fun y => name2 == reqName y) (a :: rest) =
          some a := by
        simp only [List.find?, hpa]
      rw [constraintLoop, findConstraintMatch_eq, hfc]
      dsimp only
      rw [show pyListIndex a (a :: rest) = some 0 from by simp [pyListIndex]]
      dsimp only
      rw [specReplace, if_pos ha]
      rfl
    · have hpa : (name2 == reqName a) = false := by
        simp only [beq_eq_false_iff_ne, ne_eq]
        intro h
        exact ha h.symm
      have hfc : List.find? (fun y => name2 == reqName y) (a :: rest) =
          List.find? (fun y => name2 == reqName y) rest := by
        simp only [List.find?, hpa]
      rw [constraintLoop, findConstraintMatch_eq, hfc]
      cases hfind : List.find? (fun y => name2 == reqName y) rest with
      | none =>
        dsimp only
        rw [specReplace, if_neg ha]
        have hnm : ∀ y ∈ rest, reqName y ≠ name2 := by
          intro y hy heq
          have hpy := List.find?_eq_none.mp hfind y hy
          rw [heq] at hpy
          simp at hpy
        rw [specReplace_no_match hnm]
        rfl
      | some item1 =>
        dsimp only
        have hb : (name2 == reqName item1) = true := by
          simpa using List.find?_some hfind
        have hmem : item1 ∈ rest := List.find?_mem hfind
        have hne : a ≠ item1 := by
          intro h
          subst h
          exact ha (beq_iff_eq.mp hb).symm
        have ihr := ih
        rw [constraintLoop, findConstraintMatch_eq, hfind] at ihr
        dsimp only at ihr
        simp only [pyListIndex, if_neg hne]
        cases hidx : pyListIndex item1 rest with
        | none =>
          rw [hidx] at ihr
          exact absurd ihr (by simp)
        | some i =>
          rw [hidx] at ihr
          dsimp only at ihr
          have hset := Option.some.inj ihr
          dsimp only [Option.map]
          rw [specReplace, if_neg ha]
          have hstep : (a :: rest).set (i + 1) item2 = a :: rest.set i item2 :=
            rfl
          rw [hstep, hset]

theorem pip_constraint_steps_eq (l2 : List String) :
    ∀ l1, pip_constraint_steps l1 l2 =
      some (l2.foldl
        (fun acc item2 =>
          if pyTruthy (reqVersions item2) then
            specReplace (reqName item2) item2 acc
          else acc) l1) := by
  induction l2 with
  | nil =>
    intro l1
    simp [pip_constraint_steps]
  | cons item2 rest ih =>
    intro l1
    rw [pip_constraint_steps, _pip_requirement_split_eq]
    dsimp only
    rw [List.foldl_cons]
    by_cases hv : pyTruthy (reqVersions item2) = true
    · rw [if_pos hv, if_pos hv, constraintLoop_eq]
      dsimp only
      exact ih _
    · rw [if_neg hv, if_neg hv]
      exact ih _

/-- Lemma: `pip_constraint_update` never fails and agrees with the spec-modelled
merge. -/
theorem pip_constraint_update_eq (l1 l2 : List String) :
    pip_constraint_update l1 l2 = some (merge_spec l1 l2) := by
  unfold pip_constraint_update merge_spec _lower_set_lists
  dsimp only
  rw [pip_constraint_steps_eq]

/-- C2: `pip_constraint_update` equals the spec-described merge (each
override with a non-empty parsed version spec replaces the base entry whose
parsed name matches, case-insensitively via the lower-casing preprocessing,
or is appended when no base entry matches; overrides with no version spec
are dropped), the result is ascending sorted, and the concrete example from
the spec holds. -/
theorem c2_pip_constraint_update (l1 l2 : List String) :
    pip_constraint_update l1 l2 = some (merge_spec l1 l2) ∧
    SortedPy (merge_spec l1 l2) ∧
    pip_constraint_update ["foo==1.0", "bar==2.0"] ["FOO>=2.0", "baz"] =
      some ["bar==2.0", "foo>=2.0"] := by
  refine ⟨pip_constraint_update_eq l1 l2, ?_, by decide⟩
  unfold merge_spec
  exact pySort_sorted _

theorem mem_specReplace {name2 item2 : String} :
    ∀ {l x}, x ∈ specReplace name2 item2 l → x = item2 ∨ x ∈ l := by
  intro l
  induction l with
  | nil =>
    intro x hx
    rw [specReplace] at hx
    rcases List.mem_singleton.mp hx with rfl
    exact Or.inl rfl
  | cons y rest ih =>
    intro x hx
    rw [specReplace] at hx
    by_cases hy : reqName y = name2
    · rw [if_pos hy] at hx
      rcases List.mem_cons.mp hx with rfl | hx2
      · exact Or.inl rfl
      · exact Or.inr (List.mem_cons_of_mem y hx2)
    · rw [if_neg hy] at hx
      rcases List.mem_cons.mp hx with rfl | hx2
      · exact Or.inr (List.mem_cons_self x rest)
      · rcases ih hx2 with h | h
        · exact Or.inl h
        · exact Or.inr (List.mem_cons_of_mem y h)

theorem foldl_spec_lowered :
    ∀ (o acc : List String), (∀ x ∈ acc, pyLower x = x) →
      (∀ x ∈ o, pyLower x = x) →
      ∀ s ∈ o.foldl
        (fun acc item2 =>
          if pyTruthy (reqVersions item2) then
            specReplace (reqName item2) item2 acc
          else acc) acc, pyLower s = s := by
  intro o
  induction o with
  | nil =>
    intro acc ha _ s hs
    exact ha s hs
  | cons it rest ih =>
    intro acc ha ho s hs
    rw [List.foldl_cons] at hs
    by_cases hv : pyTruthy (reqVersions it) = true
    · rw [if_pos hv] at hs
      refine ih _ ?_ (fun x hx => ho x (List.mem_cons_of_mem it hx)) s hs
      intro x hx
      rcases mem_specReplace hx with rfl | hx2
      · exact ho x (List.mem_cons_self x rest)
      · exact ha x hx2
    · rw [if_neg hv] at hs
      exact ih _ ha (fun x hx => ho x (List.mem_cons_of_mem it hx)) s hs

theorem lowered_of_mem_pySet_map {l : List String} {s : String}
    (h : s ∈ pySet (l.map pyLower)) : pyLower s = s := by
  rcases List.mem_map.mp (mem_pySet.mp h) with ⟨y, _, rfl⟩
  exact pyLower_idem y

theorem merge_spec_lowered (l1 l2 : List String) :
    ∀ s ∈ merge_spec l1 l2, pyLower s = s := by
  intro s hs
  unfold merge_spec at hs
  exact foldl_spec_lowered (pySet (l2.map pyLower)) (pySet (l1.map pyLower))
    (fun x hx => lowered_of_mem_pySet_map hx)
    (fun x hx => lowered_of_mem_pySet_map hx) s (mem_pySort.mp hs)

/-- C3: `pip_constraint_update` succeeds on every pair of lists and every
string in its output is fully lower-cased, whatever the casing of the
inputs. -/
theorem c3_pip_constraint_update_lowercase (l1 l2 : List String) :
    (pip_constraint_update l1 l2).isSome = true ∧
    ((pip_constraint_update l1 l2).getD []).all
      (fun s => pyLower s == s) = true := by
  rw [pip_constraint_update_eq]
  refine ⟨rfl, ?_⟩
  rw [Option.getD_some, List.all_eq_true]
  intro s hs
  exact beq_iff_eq.mpr (merge_spec_lowered l1 l2 s hs)

/-- C9: `filtered_list` computes the case-insensitive set difference of the
two lists, lower-cased: membership in the output is membership in the
lower-cased first list minus the lower-cased second list, the output has no
duplicates (it denotes a set, with unspecified ordering), every element is
lower-cased, and the spec's example holds. -/
theorem c9_filtered_list (l1 l2 : List String) (x : String) :
    (x ∈ filtered_list l1 l2 ↔
      (x ∈ l1.map pyLower ∧ x ∉ l2.map pyLower)) ∧
    (filtered_list l1 l2).Nodup ∧
    (filtered_list l1 l2).all (fun s => pyLower s == s) = true ∧
    filtered_list ["A", "b"] ["a"] = ["b"] := by
  refine ⟨?_, ?_, ?_, by decide⟩
  · unfold filtered_list _lower_set_lists
    dsimp only
    rw [List.mem_filter]
    constructor
    · rintro ⟨h1, h2⟩
      refine ⟨mem_pySet.mp h1, ?_⟩
      intro hmem
      have : x ∈ pySet (l2.map pyLower) := mem_pySet.mpr hmem
      simp only [Bool.not_eq_true', List.contains, List.elem_eq_mem, decide_eq_false_iff_not] at h2
      exact h2 this
    · rintro ⟨h1, h2⟩
      refine ⟨mem_pySet.mpr h1, ?_⟩
      simp only [Bool.not_eq_true', List.contains, List.elem_eq_mem, decide_eq_false_iff_not]
      intro hmem
      exact h2 (mem_pySet.mp hmem)
  · unfold filtered_list _lower_set_lists
    dsimp only
    exact (nodup_pySet _).filter _
  · rw [List.all_eq_true]
    intro s hs
    unfold filtered_list _lower_set_lists at hs
    dsimp only at hs
    have : s ∈ pySet (l1.map pyLower) := List.mem_of_mem_filter hs
    exact beq_iff_eq.mpr (lowered_of_mem_pySet_map this)

theorem getLast?_of_ne_nil {l : List String} (h : l ≠ []) :
    l.getLast? = some (l.getLastD "") := by
  rw [List.getLastD_eq_getLast?]
  cases hg : l.getLast? with
  | none => exact absurd (List.getLast?_eq_none_iff.mp hg) h
  | some v => rfl

theorem pySplit1_of_contains {s sep : String} (h : pyContains s sep = true) :
    ∃ b a, findSub sep.data s.data = some (b, a) ∧
      pySplit1 s sep = [String.mk b, String.mk a] := by
  unfold pyContains at h
  cases hf : findSub sep.data s.data with
  | none => rw [hf] at h; simp at h
  | some p =>
    cases p with
    | mk b a =>
      refine ⟨b, a, rfl, ?_⟩
      unfold pySplit1
      rw [hf]

theorem gitUrlOf_eq (repo : String) : gitUrlOf repo = some (gitWorkUrl repo) := by
  unfold gitUrlOf gitWorkUrl
  by_cases h : pyContains repo "git+" = true
  · rw [if_pos h, if_pos h]
    obtain ⟨b, a, _, hsp⟩ := pySplit1_of_contains h
    rw [hsp]
    rfl
  · rw [if_neg h, if_neg h]

/-- Lemma: `git_link_parse` never fails and computes the total field functions. -/
theorem git_link_parse_eq (repo : String) :
    git_link_parse repo = some (git_link_parse_total repo) := by
  unfold git_link_parse
  rw [gitUrlOf_eq]
  dsimp only
  have hub :
      (if pyContains (gitWorkUrl repo) "@" then
        match (pySplit1 (gitWorkUrl repo) "@").get? 0,
          (pySplit1 (gitWorkUrl repo) "@").get? 1 with
        | some u, some b => some (u, b)
        | _, _ => none
      else some (gitWorkUrl repo, "master")) =
      some (gitUrlField repo, gitBranch0 repo) := by
    by_cases h : pyContains (gitWorkUrl repo) "@" = true
    · rw [if_pos h]
      obtain ⟨b, a, _, hsp⟩ := pySplit1_of_contains h
      rw [hsp]
      unfold gitUrlField gitBranch0
      rw [if_pos h, if_pos h, hsp]
      rfl
    · rw [if_neg h]
      unfold gitUrlField gitBranch0
      rw [if_neg h, if_neg h]
  rw [hub]
  dsimp only
  rw [get?_zero_of_ne_nil (pySplitS_ne_nil (gitBranch0 repo) "#")]
  dsimp only
  have hpp :
      (if (pySplitS (gitBranch0 repo) "#").length > 1 then
        match (pySplitS (gitBranch0 repo) "#").getLast? with
        | none => none
        | some lastB =>
          if pyContains lastB "subdirectory=" then
            match (pySplitS lastB "subdirectory=").getLast? with
            | none => none
            | some seg =>
              match (pySplitS seg "&").get? 0 with
              | none => none
              | some pp => some (some pp)
          else some none
      else some none) = some (gitPluginPath repo) := by
    unfold gitPluginPath gitBranchParts
    by_cases h : (pySplitS (gitBranch0 repo) "#").length > 1
    · rw [if_pos h, if_pos h]
      rw [getLast?_of_ne_nil (pySplitS_ne_nil (gitBranch0 repo) "#")]
      dsimp only
      by_cases hsub : pyContains ((pySplitS (gitBranch0 repo) "#").getLastD "")
          "subdirectory=" = true
      · rw [if_pos hsub, if_pos hsub]
        rw [getLast?_of_ne_nil (pySplitS_ne_nil _ "subdirectory=")]
        dsimp only
        rw [get?_zero_of_ne_nil (pySplitS_ne_nil _ "&")]
      · rw [if_neg hsub, if_neg hsub]
    · rw [if_neg h, if_neg h]
  rw [hpp]
  dsimp only
  rw [get?_zero_of_ne_nil (pySplitS_ne_nil _ ".git")]
  dsimp only
  unfold git_link_parse_total gitName gitVersion gitBranchParts
  rfl

theorem findSub_decomp {sub : List Char} :
    ∀ {cs b a : List Char}, findSub sub cs = some (b, a) →
      cs = b ++ (sub ++ a) := by
  intro cs
  induction cs with
  | nil =>
    intro b a h
    rw [findSub] at h
    by_cases hs : sub.isEmpty = true
    · rw [if_pos hs] at h
      obtain ⟨rfl, rfl⟩ : b = [] ∧ a = [] := by
        constructor <;> (cases h; rfl)
      simp [List.isEmpty_iff.mp hs]
    · rw [if_neg hs] at h
      exact absurd h (by simp)
  | cons c rest ih =>
    intro b a h
    rw [findSub] at h
    by_cases hp : sub.isPrefixOf (c :: rest) = true
    · rw [if_pos hp] at h
      obtain ⟨t, ht⟩ := List.isPrefixOf_iff_prefix.mp hp
      obtain ⟨rfl, rfl⟩ : b = [] ∧ a = (c :: rest).drop sub.length := by
        constructor <;> (cases h; rfl)
      rw [List.nil_append, ← ht, List.drop_left]
    · rw [if_neg hp] at h
      cases hf : findSub sub rest with
      | none =>
        rw [hf] at h
        exact absurd h (by simp)
      | some p =>
        cases p with
        | mk b' a' =>
          rw [hf] at h
          have hb : b = c :: b' ∧ a = a' := by
            constructor <;> (cases h; rfl)
          obtain ⟨rfl, rfl⟩ := hb
          rw [List.cons_append, ← ih hf]

theorem findSub_isSome_append (sub a : List Char)
    (h : (findSub sub a).isSome = true) :
    ∀ pre, (findSub sub (pre ++ a)).isSome = true := by
  intro pre
  induction pre with
  | nil => simpa using h
  | cons c rest ih =>
    rw [List.cons_append, findSub]
    by_cases hp : sub.isPrefixOf (c :: (rest ++ a)) = true
    · rw [if_pos hp]
      rfl
    · rw [if_neg hp]
      cases hf : findSub sub (rest ++ a) with
      | none => rw [hf] at ih; simp at ih
      | some p => simp

theorem workUrl_no_at {repo : String} (h : pyContains repo "@" = false) :
    pyContains (gitWorkUrl repo) "@" = false := by
  unfold gitWorkUrl
  by_cases hg : pyContains repo "git+" = true
  · rw [if_pos hg]
    obtain ⟨b, a, hf, hsp⟩ := pySplit1_of_contains hg
    rw [hsp]
    show pyContains (String.mk a) "@" = false
    unfold pyContains
    cases hfa : findSub "@".data (String.mk a).data with
    | none => rfl
    | some p =>
      exfalso
      have hsome : (findSub "@".data a).isSome = true := by
        rw [show (String.mk a).data = a from rfl] at hfa
        rw [hfa]
        rfl
      have h1 := findSub_isSome_append "@".data a hsome "git+".data
      have h2 := findSub_isSome_append "@".data ("git+".data ++ a) h1 b
      unfold pyContains at h
      rw [findSub_decomp hf] at h
      rw [h2] at h
      exact Bool.true_eq_false.mp h
  · rw [if_neg hg]
    exact h

/-- C4: `git_link_parse` decomposes the example plugin link into name
`"repo"`, version `"v1.2"`, plugin path `"plugins/foo"`, the cleaned URL,
and the unmodified original; and on every input without `@` the version is
the literal `"master"` and the plugin path is `None`, as on
`"https://example.com/org/repo"`. -/
theorem c4_git_link_parse (repo : String) :
    git_link_parse
        "git+https://example.com/org/repo.git@v1.2#subdirectory=plugins/foo" =
      some ⟨"repo", "v1.2", some "plugins/foo",
        "https://example.com/org/repo.git",
        "git+https://example.com/org/repo.git@v1.2#subdirectory=plugins/foo"⟩ ∧
    (pyContains repo "@" = false →
      (git_link_parse repo).map (fun g => (g.version, g.plugin_path)) =
        some ("master", none)) ∧
    git_link_parse "https://example.com/org/repo" =
      some ⟨"repo", "master", none, "https://example.com/org/repo",
        "https://example.com/org/repo"⟩ := by
  refine ⟨by decide, ?_, by decide⟩
  intro h
  have hw := workUrl_no_at h
  rw [git_link_parse_eq]
  have hb0 : gitBranch0 repo = "master" := by
    unfold gitBranch0
    rw [if_neg (by rw [hw]; simp)]
  have hbp : gitBranchParts repo = ["master"] := by
    unfold gitBranchParts
    rw [hb0]
    decide
  have hv : gitVersion repo = "master" := by
    unfold gitVersion
    rw [hbp]
    rfl
  have hpp : gitPluginPath repo = none := by
    unfold gitPluginPath
    rw [hbp]
    decide
  unfold git_link_parse_total
  rw [Option.map_some']
  dsimp only
  rw [hv, hpp]

/-- Witness for C4 at the no-`@` example URL. -/
theorem c4_git_link_parse_witness :
    pyContains "https://example.com/org/repo" "@" = false ∧
    (git_link_parse "https://example.com/org/repo").map
      (fun g => (g.version, g.plugin_path)) = some ("master", none) :=
  ⟨by decide,
    (c4_git_link_parse "https://example.com/org/repo").2.1 (by decide)⟩

/-- C10: the `git+` scheme stripping triggers on any occurrence of `git+`,
not only a leading one: whenever `git+` first occurs with prefix `b` and
remainder `a`, the working URL is exactly `a` (everything up to and
including the marker is discarded), e.g. `"https://host/agit+x"` yields the
working URL (and hence `url` field) `"x"`. -/
theorem c10_gitplus_strips_anywhere (repo : String) (b a : List Char)
    (h : findSub "git+".data repo.data = some (b, a)) :
    gitUrlOf repo = some (String.mk a) ∧
    repo.data = b ++ ("git+".data ++ a) ∧
    gitUrlOf "https://host/agit+x" = some "x" ∧
    (git_link_parse "https://host/agit+x").map GitParts.url = some "x" := by
  refine ⟨?_, findSub_decomp h, by decide, by decide⟩
  unfold gitUrlOf
  have hc : pyContains repo "git+" = true := by
    unfold pyContains
    rw [h]
    rfl
  rw [if_pos hc]
  obtain ⟨b', a', hf', hsp⟩ := pySplit1_of_contains hc
  rw [hf'] at h
  obtain ⟨rfl, rfl⟩ : b' = b ∧ a' = a := by
    constructor <;> (cases h; rfl)
  rw [hsp]
  rfl

/-- Witness for C10 at `"agit+x"`, where `git+` occurs mid-string. -/
theorem c10_gitplus_strips_anywhere_witness :
    findSub "git+".data "agit+x".data = some ("a".data, "x".data) ∧
    (gitUrlOf "agit+x" = some (String.mk "x".data) ∧
     "agit+x".data = "a".data ++ ("git+".data ++ "x".data) ∧
     gitUrlOf "https://host/agit+x" = some "x" ∧
     (git_link_parse "https://host/agit+x").map GitParts.url = some "x") :=
  ⟨by decide,
    c10_gitplus_strips_anywhere "agit+x" "a".data "x".data (by decide)⟩

theorem digitVal36_hexDigit (n : Nat) :
    (digitVal36 (hexDigit n)).isSome = true := by
  have hall : ∀ m, m < 16 →
      (digitVal36 ("0123456789abcdef".data.getD m '0')).isSome = true := by
    decide
  unfold hexDigit
  exact hall (n % 16) (Nat.mod_lt n (by norm_num))

theorem sha256hexdigest_chars (msg : List Nat) :
    ∀ c ∈ (sha256hexdigest msg).data, (digitVal36 c).isSome = true := by
  intro c hc
  unfold sha256hexdigest at hc
  dsimp only at hc
  rcases List.mem_flatten.mp hc with ⟨l, hl, hcl⟩
  rcases List.mem_map.mp hl with ⟨w, _, rfl⟩
  unfold toHex8 at hcl
  rcases List.mem_map.mp hcl with ⟨i, _, rfl⟩
  exact digitVal36_hexDigit _

theorem sha256hexdigest_ne_empty (msg : List Nat) :
    (sha256hexdigest msg).data.isEmpty = false := by
  unfold sha256hexdigest
  dsimp only
  rw [List.map_cons, List.flatten_cons]
  cases htl : toHex8 (sha256Hash msg).a with
  | nil =>
    exfalso
    have : (8 : Nat) = 0 := by
      have := congrArg List.length htl
      simp [toHex8] at this
    simp at this
  | cons x xs => simp [htl]

theorem foldlM_digits_isSome :
    ∀ (cs : List Char), (∀ c ∈ cs, (digitVal36 c).isSome = true) →
      ∀ acc : Nat,
        ((cs.foldlM (fun acc c => (digitVal36 c).map (acc * 36 + ·))
          acc : Option Nat)).isSome = true := by
  intro cs
  induction cs with
  | nil =>
    intro _ acc
    rfl
  | cons c rest ih =>
    intro h acc
    rw [List.foldlM_cons]
    cases hd : digitVal36 c with
    | none =>
      have := h c (List.mem_cons_self c rest)
      rw [hd] at this
      simp at this
    | some d =>
      simp only [hd, Option.map_some']
      exact ih (fun x hx => h x (List.mem_cons_of_mem c hx)) _

theorem string_2_int_isSome {s : String}
    (h : s.data.all (fun c => c.toNat < 128) = true) :
    (string_2_int s).isSome = true := by
  unfold string_2_int pyEncodeUtf8
  rw [if_pos h]
  dsimp only
  cases hp : pyIntBase36 (sha256hexdigest (s.data.map Char.toNat)) with
  | some n => rfl
  | none =>
    exfalso
    unfold pyIntBase36 at hp
    rw [if_neg (by
      rw [sha256hexdigest_ne_empty (s.data.map Char.toNat)]
      simp)] at hp
    have := foldlM_digits_isSome (sha256hexdigest (s.data.map Char.toNat)).data
      (sha256hexdigest_chars (s.data.map Char.toNat)) 0
    rw [hp] at this
    simp at this

/-- C6 counterexample: `string_2_int` is not total.  On the byte string
`"\xff"`, Python 2 `str.encode('utf-8')` implicitly decodes with the ascii
codec and raises `UnicodeDecodeError`, which `except AttributeError` does
not catch, so the function raises instead of returning a value. -/
theorem c6_counterexample : (string_2_int "\xff").isSome = false := by
  decide

/-- C6 (amended): the requirement parser, the requirement-name filter, the
constraint merge and the git-link parser are total: the explicit failure
points of their Python primitives (subscripting, `list.index`) are never
reached, on any input; `filtered_list` contains no failure point and always
returns its value; and `string_2_int` returns a value on every ASCII byte
string (its hashing and `int(_, 36)` arithmetic never fail), its only
failure path being the implicit ascii decode in `encode('utf-8')` on a byte
at or above `0x80`. -/
theorem c6_filters_total (r s : String) (l1 l2 : List String) :
    (_pip_requirement_split r).isSome = true ∧
    (pip_requirement_names l1).isSome = true ∧
    (pip_constraint_update l1 l2).isSome = true ∧
    (git_link_parse s).isSome = true ∧
    (s.data.all (fun c => c.toNat < 128) = true →
      (string_2_int s).isSome = true) ∧
    ∃ v, filtered_list l1 l2 = v := by
  refine ⟨?_, ?_, ?_, ?_, fun h => string_2_int_isSome h,
    ⟨filtered_list l1 l2, rfl⟩⟩
  · rw [_pip_requirement_split_eq]
    rfl
  · rw [pip_requirement_names, namedLoop_eq]
    rfl
  · rw [pip_constraint_update_eq]
    rfl
  · rw [git_link_parse_eq]
    rfl

/-- Witness for C6 at the ASCII string `"abc"`. -/
theorem c6_filters_total_witness :
    ("abc".data.all (fun c => c.toNat < 128) = true) ∧
    (string_2_int "abc").isSome = true :=
  ⟨by decide,
    (c6_filters_total "x" "abc" [] []).2.2.2.2.1 (by decide)⟩
